import Mathlib

/-!
# Verification of the `reference-link-section-placement` core

Shallow embedding of `src/helpers/section-parser.ts` and
`src/rules/reference-link-section-placement.ts` from
`dahlia/markdownlint-rules`.  Lines are lists of characters; a document is a
list of lines (1-based line numbers, as in the source).  JavaScript regular
expressions are translated into executable character-list scanners whose
semantics match the regexes used by the source (anchored prefixes, greedy
character classes, global scans with `lastIndex` advancing).  The forward
scan loops are embedded with an explicit fuel argument equal to the number
of remaining loop iterations, so that every definition is structurally
recursive and evaluates inside the kernel; fuel `lines.length` is always
sufficient because each iteration advances the index by at least one.
-/

namespace MdRules

/-- A document line, as a list of characters (no line terminators). -/
abbrev Line := List Char

/-- JavaScript `\s` on the characters that can appear in a line
(space class used by the source's regexes). -/
def isSpace (c : Char) : Bool :=
  c = ' ' || c = '\t' || c = '\n' || c = '\r' ||
  c = Char.ofNat 11 || c = Char.ofNat 12 || c = Char.ofNat 0xa0

/-- The backtick character (code 96). -/
def backtick : Char := Char.ofNat 96

/-- `line.trim().length === 0`: the line is blank. -/
def isBlank (l : Line) : Bool := l.all isSpace

/-- `/^(\s*)(`{3,}|~{3,})/.exec(line)`: optional indent, then a run of at
least three backticks or tildes.  Returns the fence character and the run
length (`fence[0]` and `fence.length` in the source). -/
def fenceMatch (l : Line) : Option (Char × Nat) :=
  match l.dropWhile isSpace with
  | [] => none
  | c :: rest =>
    if c = backtick || c = '~' then
      let k := 1 + (rest.takeWhile (· = c)).length
      if 3 ≤ k then some (c, k) else none
    else none

/-- `/^(=+|-+)\s*$/.exec(nextLine)`: a Setext heading underline — a nonempty
run of `=` or of `-` followed only by whitespace. -/
def setextMatch (l : Line) : Bool :=
  match l with
  | [] => false
  | c :: _ =>
    (c = '=' || c = '-') && (l.dropWhile (· = c)).all isSpace

/-- `/^(#{1,6})\s+(.*)$/.exec(line)`: an ATX heading — one to six `#`
characters followed by at least one whitespace character. -/
def atxMatch (l : Line) : Bool :=
  let h := (l.takeWhile (· = '#')).length
  1 ≤ h && h ≤ 6 &&
    (match l.drop h with
     | c :: _ => isSpace c
     | [] => false)

/-- The `nextLine` lookahead of the scan loops:
`i + 1 < lines.length ? lines[i + 1] : ""`. -/
def nextLineAt (lines : List Line) (i : Nat) : Line :=
  lines.getD (i + 1) []

/-- One content block: the span of lines between one heading and the next,
heading lines excluded (`ContentBlock` in the source). -/
structure ContentBlock where
  startLine : Nat
  endLine : Nat
deriving DecidableEq, Repr

/-- The loop-carried fence state of the scans: `none` when not inside a
fenced code block, otherwise the opening fence character and run length
(`inCodeBlock`, `codeBlockFence`, `codeBlockFenceLength` in the source). -/
abbrev FenceState := Option (Char × Nat)

/-- The fence-state transition every scan loop of the source performs on one
line: a fence-like line opens a fence when none is active, closes the active
fence exactly when its character matches and its run length is at least the
opening run length, and is ignored otherwise; non-fence-like lines leave the
state unchanged. -/
def fenceStep (st : FenceState) (l : Line) : FenceState :=
  match fenceMatch l with
  | none => st
  | some (c, k) =>
    match st with
    | none => some (c, k)
    | some (fc, fl) => if c = fc && fl ≤ k then none else some (fc, fl)

/-- The fence state after the scan has processed the first `i` lines. -/
def codeState (lines : List Line) (i : Nat) : FenceState :=
  (lines.take i).foldl fenceStep none

/-- The final `if (blockStartLine <= lines.length)` block emission of
`parseContentBlocks`. -/
def pcbLeaf (lines : List Line) (blockStart : Nat) : List ContentBlock :=
  if blockStart ≤ lines.length then [⟨blockStart, lines.length⟩] else []

/-- Loop body of `parseContentBlocks`: `i` is the 0-based index,
`blockStart` the 1-based start line of the open block, `fence` the fence
state.  Mirrors the source loop including the `i++` skip of a Setext
underline and the `i > blockStartLine - 1` emptiness guard.  The `fuel`
argument only bounds the number of iterations; `lines.length - i` more
iterations always suffice. -/
def pcbGo (lines : List Line) : Nat → Nat → Nat → FenceState → List ContentBlock
  | 0, _, blockStart, _ => pcbLeaf lines blockStart
  | fuel + 1, i, blockStart, fence =>
    if i < lines.length then
      let line := lines.getD i []
      match fenceMatch line with
      | some (c, k) =>
        match fence with
        | none => pcbGo lines fuel (i + 1) blockStart (some (c, k))
        | some (fc, fl) =>
          if c = fc && fl ≤ k then pcbGo lines fuel (i + 1) blockStart none
          else pcbGo lines fuel (i + 1) blockStart (some (fc, fl))
      | none =>
        if fence.isSome then
          pcbGo lines fuel (i + 1) blockStart fence
        else if setextMatch (nextLineAt lines i) && !isBlank line then
          (if blockStart - 1 < i then [⟨blockStart, i⟩] else []) ++
            pcbGo lines fuel (i + 2) (i + 3) none
        else if atxMatch line then
          (if blockStart - 1 < i then [⟨blockStart, i⟩] else []) ++
            pcbGo lines fuel (i + 1) (i + 2) none
        else
          pcbGo lines fuel (i + 1) blockStart fence
    else pcbLeaf lines blockStart

/-- `parseContentBlocks(lines)`: the content blocks of a document. -/
def parseContentBlocks (lines : List Line) : List ContentBlock :=
  pcbGo lines lines.length 0 1 none

/-- Loop body of `findCodeBlockLines`: collects the 0-based indices of the
lines inside fenced code blocks, fence delimiter lines included.  `i` is
the index of the first line of `rest` within the document. -/
def fcbGo (i : Nat) (fence : FenceState) : List Line → List Nat
  | [] => []
  | line :: rest =>
    match fenceMatch line with
    | some (c, k) =>
      match fence with
      | none => i :: fcbGo (i + 1) (some (c, k)) rest
      | some (fc, fl) =>
        if c = fc && fl ≤ k then i :: fcbGo (i + 1) none rest
        else i :: fcbGo (i + 1) (some (fc, fl)) rest
    | none =>
      match fence with
      | some f => i :: fcbGo (i + 1) (some f) rest
      | none => fcbGo (i + 1) none rest

/-- `findCodeBlockLines(lines)`: 0-based indices of lines inside fenced code
blocks. -/
def findCodeBlockLines (lines : List Line) : List Nat :=
  fcbGo 0 none lines

/-- `\s+\S+` anchored at the start of `l`: one or more whitespace characters
followed by at least one non-whitespace character. -/
def hasDefTail (l : List Char) : Bool :=
  match l with
  | [] => false
  | c :: _ => isSpace c && !(l.dropWhile isSpace).isEmpty

/-- Search step for `/^\s*\[.+\]:\s+\S+/` after the opening bracket and the
first consumed character: looks for a later `]:` followed by `\s+\S+`. -/
def looseFindTail : List Char → Bool
  | ']' :: ':' :: t => hasDefTail t || looseFindTail (':' :: t)
  | _ :: t => looseFindTail t
  | [] => false

/-- `/^\s*\[.+\]:\s+\S+/.test(line)`: the loose reference-definition pattern
used by `findLastContentLine` (the `.+` may itself contain `]`). -/
def refDefLoose (l : Line) : Bool :=
  match l.dropWhile isSpace with
  | '[' :: _ :: rest => looseFindTail rest
  | _ => false

/-- `/^\s*\[([^\]]+)\]:\s+\S+/.exec(line)`: the strict reference-definition
pattern of `findReferenceLinkDefinitions` (and the skip test of
`findReferenceLinkUsages`).  Returns the captured label. -/
def refDefStrict (l : Line) : Option (List Char) :=
  match l.dropWhile isSpace with
  | '[' :: rest =>
    let label := rest.takeWhile (· ≠ ']')
    if label.isEmpty then none
    else
      match rest.dropWhile (· ≠ ']') with
      | ']' :: ':' :: t => if hasDefTail t then some label else none
      | _ => none
  | _ => none

/-- Whether `findLastContentLine` counts 1-based line `j` as content: not
inside a code block, not blank, and not matching the loose definition
pattern. -/
def flclKeep (lines : List Line) (cbl : List Nat) (j : Nat) : Bool :=
  !cbl.contains (j - 1) &&
  !isBlank (lines.getD (j - 1) []) &&
  !refDefLoose (lines.getD (j - 1) [])

/-- `findLastContentLine(lines, startLine, endLine)`: the source loops `i`
from `endLine - 1` down to `startLine - 1`, returning `i + 1` at the first
line that is kept, and `0` when none is; equivalently, the first kept
1-based line number of `endLine, ..., startLine`. -/
def findLastContentLine (lines : List Line) (startLine endLine : Nat) : Nat :=
  let cbl := findCodeBlockLines lines
  ((List.range' startLine (endLine + 1 - startLine)).reverse.find?
    (flclKeep lines cbl)).getD 0

/-- One iteration of the `findReferenceLinkDefinitions` loop at 0-based
index `i`. -/
def frdLine (lines : List Line) (cbl : List Nat) (i : Nat) :
    List (Nat × List Char) :=
  if cbl.contains i then []
  else
    match refDefStrict (lines.getD i []) with
    | some lab => [(i + 1, lab)]
    | none => []

/-- `findReferenceLinkDefinitions(lines, startLine, endLine)`: the source
loops `i` from `startLine - 1` while `i < endLine`, collecting
`(i + 1, label)` for strict definition lines outside code blocks. -/
def findReferenceLinkDefinitions (lines : List Line) (startLine endLine : Nat) :
    List (Nat × List Char) :=
  let cbl := findCodeBlockLines lines
  (List.range' (startLine - 1) (endLine - (startLine - 1))).flatMap
    (frdLine lines cbl)

theorem length_dropWhile_le (p : Char → Bool) (l : List Char) :
    (l.dropWhile p).length ≤ l.length := by
  induction l with
  | nil => simp
  | cons c t ih =>
    by_cases h : p c
    · simpa [List.dropWhile, h] using Nat.le_succ_of_le ih
    · simp [List.dropWhile, h]

/-- Splits `l` at the first occurrence of `c`: returns the (possibly empty)
prefix of characters before the first `c` and the suffix after it, or `none`
when `c` does not occur.  This is how a greedy `[^c]*` followed by a literal
`c` consumes its input. -/
def breakAt (c : Char) : List Char → Option (List Char × List Char)
  | [] => none
  | d :: t =>
    if d = c then some ([], t)
    else
      match breakAt c t with
      | some (b, a) => some (d :: b, a)
      | none => none

theorem breakAt_length {c : Char} {l b a : List Char}
    (h : breakAt c l = some (b, a)) : a.length < l.length := by
  induction l generalizing b with
  | nil => simp [breakAt] at h
  | cons d t ih =>
    simp only [breakAt] at h
    by_cases hd : d = c
    · simp only [hd, if_pos rfl, Option.some.injEq, Prod.mk.injEq] at h
      obtain ⟨-, rfl⟩ := h
      simp [Nat.lt_succ_self]
    · simp only [hd, if_false] at h
      match h2 : breakAt c t with
      | some (b2, a2) =>
        rw [h2] at h
        simp only [Option.some.injEq, Prod.mk.injEq] at h
        obtain ⟨-, rfl⟩ := h
        exact Nat.lt_succ_of_lt (ih h2)
      | none => rw [h2] at h; simp at h

/-- One attempted match of the full-reference pattern
`\[[^\]]+\]\[([^\]]+)\]` at the head of `l`: `[`, a nonempty run of
non-`]` characters, `]`, `[`, a nonempty captured label of non-`]`
characters, `]`.  Returns the captured label and the remainder of the line
after the match (the `lastIndex` position). -/
def matchFullRef (l : List Char) : Option (List Char × List Char) :=
  match l with
  | '[' :: r1 =>
    match breakAt ']' r1 with
    | some (a, r2) =>
      if a.isEmpty then none
      else
        match r2 with
        | '[' :: r2b =>
          match breakAt ']' r2b with
          | some (b, r3) => if b.isEmpty then none else some (b, r3)
          | none => none
        | _ => none
    | none => none
  | _ => none

theorem matchFullRef_length {l b r : List Char}
    (h : matchFullRef l = some (b, r)) : r.length < l.length := by
  unfold matchFullRef at h
  split at h
  next r1 =>
    split at h
    next a r2 h1 =>
      split at h
      next => simp at h
      next =>
        split at h
        next r2b =>
          split at h
          next b2 r3 h3 =>
            split at h
            next => simp at h
            next =>
              simp only [Option.some.injEq, Prod.mk.injEq] at h
              obtain ⟨-, rfl⟩ := h
              have l1 := breakAt_length h1
              have l2 := breakAt_length h3
              simp only [List.length_cons] at *
              omega
          next => simp at h
        next => simp at h
    next => simp at h
  next => simp at h

/-- One attempted match of the shortcut-reference pattern
`\[([^\]]+)\](?!\s*[:\[(])` at the head of `l`: `[`, a nonempty captured
label of non-`]` characters, `]`, then a negative lookahead rejecting an
optional run of whitespace followed by `:`, `[`, or `(`.  The lookahead
consumes nothing, so the remainder starts right after the `]`. -/
def matchShortcut (l : List Char) : Option (List Char × List Char) :=
  match l with
  | '[' :: r1 =>
    match breakAt ']' r1 with
    | some (b, r2) =>
      if b.isEmpty then none
      else
        match r2.dropWhile isSpace with
        | c :: _ => if c = ':' || c = '[' || c = '(' then none else some (b, r2)
        | [] => some (b, r2)
    | none => none
  | _ => none

theorem matchShortcut_length {l b r : List Char}
    (h : matchShortcut l = some (b, r)) : r.length < l.length := by
  unfold matchShortcut at h
  split at h
  next r1 =>
    split at h
    next b2 r2 h1 =>
      split at h
      next => simp at h
      next =>
        have l1 := breakAt_length h1
        split at h
        next =>
          split at h
          next => simp at h
          next =>
            simp only [Option.some.injEq, Prod.mk.injEq] at h
            obtain ⟨-, rfl⟩ := h
            simp only [List.length_cons]
            omega
        next =>
          simp only [Option.some.injEq, Prod.mk.injEq] at h
          obtain ⟨-, rfl⟩ := h
          simp only [List.length_cons]
          omega
    next => simp at h
  next => simp at h

/-- The `while ((match = fullRefPattern.exec(line)) != null)` loop: scans
the line left to right for full references `[text][label]`, records each
captured label lowercased, and resumes after each match.  Each step consumes
at least one character, so fuel `l.length` completes the scan
(`matchFullRef_length`). -/
def fullGo : Nat → List Char → List (List Char)
  | 0, _ => []
  | fuel + 1, l =>
    match matchFullRef l with
    | some (b, rest) => b.map Char.toLower :: fullGo fuel rest
    | none =>
      match l with
      | [] => []
      | _ :: rest => fullGo fuel rest

/-- All full-reference labels of a line, lowercased, in order. -/
def fullRefLabels (l : Line) : List (List Char) := fullGo l.length l

/-- The `while ((match = shortcutRefPattern.exec(line)) != null)` loop:
scans for shortcut references `[label]`, skipping a match whose preceding
character (`beforeMatch`) is `[` or `!`, recording the other captured
labels lowercased.  `prev` is the character just before the current scan
position (`none` at line start); fuel as in `fullGo`
(`matchShortcut_length`). -/
def shortcutGo : Nat → Option Char → List Char → List (List Char)
  | 0, _, _ => []
  | fuel + 1, prev, l =>
    match matchShortcut l with
    | some (b, rest) =>
      (if prev = some '[' || prev = some '!' then [] else [b.map Char.toLower]) ++
        shortcutGo fuel (some ']') rest
    | none =>
      match l with
      | [] => []
      | c :: rest => shortcutGo fuel (some c) rest

/-- All shortcut-reference labels of a line, lowercased, in order. -/
def shortcutRefLabels (l : Line) : List (List Char) :=
  shortcutGo l.length none l

/-- One iteration of the `findReferenceLinkUsages` loop at 0-based index
`i`: skips code-block lines and strict definition lines, then records the
full-reference labels followed by the shortcut-reference labels of the
line, each with the 1-based line number. -/
def fruLine (lines : List Line) (cbl : List Nat) (i : Nat) :
    List (Nat × List Char) :=
  if cbl.contains i then []
  else
    let line := lines.getD i []
    if (refDefStrict line).isSome then []
    else
      (fullRefLabels line).map (fun lab => (i + 1, lab)) ++
        (shortcutRefLabels line).map (fun lab => (i + 1, lab))

/-- `findReferenceLinkUsages(lines, startLine, endLine)`. -/
def findReferenceLinkUsages (lines : List Line) (startLine endLine : Nat) :
    List (Nat × List Char) :=
  let cbl := findCodeBlockLines lines
  (List.range' (startLine - 1) (endLine - (startLine - 1))).flatMap
    (fruLine lines cbl)

/-- `if (!labelUsageBlock.has(usage.label)) labelUsageBlock.set(usage.label,
block)`: the first-usage map insert, keeping an existing entry. -/
def insertUsage (m : List (List Char × ContentBlock)) (lab : List Char)
    (b : ContentBlock) : List (List Char × ContentBlock) :=
  if (m.lookup lab).isSome then m else m ++ [(lab, b)]

/-- Folds one block's usages into the first-usage map. -/
def addBlockUsages (lines : List Line) (m : List (List Char × ContentBlock))
    (b : ContentBlock) : List (List Char × ContentBlock) :=
  (findReferenceLinkUsages lines b.startLine b.endLine).foldl
    (fun m u => insertUsage m u.2 b) m

/-- The `labelUsageBlock` map of the rule: for each label (lowercased by the
usage scanner), the first block in document order where it is used. -/
def labelUsageBlock (lines : List Line) : List (List Char × ContentBlock) :=
  (parseContentBlocks lines).foldl (addBlockUsages lines) []

/-- `labelUsageBlock.get(label)`: the first-usage block of a (lowercased)
label, if any. -/
def firstUsageBlock (lines : List Line) (lab : List Char) :
    Option ContentBlock :=
  (labelUsageBlock lines).lookup lab

/-- The two violation kinds the rule reports. -/
inductive ViolationKind where
  | crossBlock
  | notAtEnd
deriving DecidableEq, Repr

/-- One reported violation: the 1-based line number of the definition, the
definition's label as written, and the kind of violation. -/
structure Violation where
  lineNumber : Nat
  label : List Char
  kind : ViolationKind
deriving DecidableEq, Repr

/-- The per-definition check of the rule's inner loop: a `CrossBlock`
violation when the label's first-usage block differs from the definition's
block, otherwise a `NotAtEnd` violation when the definition's line is
strictly before the block's last content line. -/
def defViolation (m : List (List Char × ContentBlock)) (b : ContentBlock)
    (lastContentLine ln : Nat) (lab : List Char) : List Violation :=
  match m.lookup (lab.map Char.toLower) with
  | some ub =>
    if ub.startLine ≠ b.startLine || ub.endLine ≠ b.endLine then
      [⟨ln, lab, ViolationKind.crossBlock⟩]
    else if ln < lastContentLine then [⟨ln, lab, ViolationKind.notAtEnd⟩]
    else []
  | none =>
    if ln < lastContentLine then [⟨ln, lab, ViolationKind.notAtEnd⟩] else []

/-- The violations one block contributes. -/
def blockViolations (lines : List Line) (m : List (List Char × ContentBlock))
    (b : ContentBlock) : List Violation :=
  let refLinks := findReferenceLinkDefinitions lines b.startLine b.endLine
  if refLinks.isEmpty then []
  else
    let lastContentLine := findLastContentLine lines b.startLine b.endLine
    refLinks.flatMap fun p => defViolation m b lastContentLine p.1 p.2

/-- The whole `reference-link-section-placement` rule: all violations it
reports on a document, in order. -/
def referenceLinkSectionPlacement (lines : List Line) : List Violation :=
  let blocks := parseContentBlocks lines
  let m := labelUsageBlock lines
  blocks.flatMap (blockViolations lines m)

/-- An item of the instrumented segmenter scan: either an emitted content
block or a heading-construct line (the ATX line, or the Setext text line and
its underline line). -/
inductive SegItem where
  | block (b : ContentBlock)
  | head (line : Nat)
deriving DecidableEq, Repr

/-- Instrumented version of `pcbGo` that also records the 1-based heading
construct lines the scan consumes, in document order. -/
def pcbItemsGo (lines : List Line) : Nat → Nat → Nat → FenceState → List SegItem
  | 0, _, blockStart, _ => (pcbLeaf lines blockStart).map SegItem.block
  | fuel + 1, i, blockStart, fence =>
    if i < lines.length then
      let line := lines.getD i []
      match fenceMatch line with
      | some (c, k) =>
        match fence with
        | none => pcbItemsGo lines fuel (i + 1) blockStart (some (c, k))
        | some (fc, fl) =>
          if c = fc && fl ≤ k then pcbItemsGo lines fuel (i + 1) blockStart none
          else pcbItemsGo lines fuel (i + 1) blockStart (some (fc, fl))
      | none =>
        if fence.isSome then
          pcbItemsGo lines fuel (i + 1) blockStart fence
        else if setextMatch (nextLineAt lines i) && !isBlank line then
          (if blockStart - 1 < i then [SegItem.block ⟨blockStart, i⟩] else []) ++
            SegItem.head (i + 1) :: SegItem.head (i + 2) ::
              pcbItemsGo lines fuel (i + 2) (i + 3) none
        else if atxMatch line then
          (if blockStart - 1 < i then [SegItem.block ⟨blockStart, i⟩] else []) ++
            SegItem.head (i + 1) :: pcbItemsGo lines fuel (i + 1) (i + 2) none
        else
          pcbItemsGo lines fuel (i + 1) blockStart fence
    else (pcbLeaf lines blockStart).map SegItem.block

/-- The instrumented scan of a whole document. -/
def pcbItems (lines : List Line) : List SegItem :=
  pcbItemsGo lines lines.length 0 1 none

/-- The 1-based line numbers an item covers. -/
def itemLines : SegItem → List Nat
  | .block b => List.range' b.startLine (b.endLine + 1 - b.startLine)
  | .head j => [j]

/-- The block of an item, if it is one. -/
def itemBlock : SegItem → Option ContentBlock
  | .block b => some b
  | .head _ => none

/-- The heading line of an item, if it is one. -/
def itemHead : SegItem → Option Nat
  | .block _ => none
  | .head j => some j

/-- The heading-construct lines of a document, in scan order. -/
def pcbHeads (lines : List Line) : List Nat :=
  (pcbItems lines).filterMap itemHead

/-- Builds a document from string literals, one per line. -/
def mkDoc (ss : List String) : List Line := ss.map String.toList

/-- The indent of a fence-like line: the `(\s*)` capture of the fence
pattern.  The source captures this group but never uses it. -/
def fenceIndent (l : Line) : Nat := (l.takeWhile isSpace).length

/-- A definition followed, after a blank line, by a thematic break and
nothing else in its block (spec scenario 4). -/
def c2doc : List Line :=
  mkDoc ["Section", "-------", "", "Text with [link].", "",
         "[link]: https://example.com/", "", "---"]

/-- A multi-line definition whose continuation line ends the block's content
(the regression document of issue 4 in the repository's test suite). -/
def c3doc : List Line :=
  mkDoc ["Runtime support", "---------------", "", "Some text with a footnote.[^1]", "",
         "[^1]: This is a long footnote that spans",
         "      multiple lines for readability.", "", "### Subsection", "",
         "More content here."]

/-- A document whose only definition has a label used nowhere, with prose
after the definition. -/
def c4doc : List Line :=
  mkDoc ["# H", "", "[unused]: https://example.com/", "", "Tail text."]

/-- A document with a heading immediately followed by another heading. -/
def c6doc : List Line := mkDoc ["## A", "## B", "x"]

/-- A fence opened with indent 2 and a fence-like line with indent 0
afterwards, followed by a heading-like line. -/
def c8doc : List Line := mkDoc ["  ~~~~", "~~~~", "# H", "x"]

/-- A line whose only reference-link syntax is a collapsed reference. -/
def c9doc : List Line := mkDoc ["see [label][]"]

/-! ## Segmenter invariants -/

theorem filterMap_itemBlock_leaf (lines : List Line) (bs : Nat) :
    ((pcbLeaf lines bs).map SegItem.block).filterMap itemBlock
      = pcbLeaf lines bs := by
  unfold pcbLeaf
  split <;> simp [itemBlock]

/-- The instrumented scan's blocks are exactly the blocks of `pcbGo`. -/
theorem pcbItemsGo_blocks (lines : List Line) :
    ∀ fuel i bs fence,
      (pcbItemsGo lines fuel i bs fence).filterMap itemBlock
        = pcbGo lines fuel i bs fence := by
  intro fuel
  induction fuel with
  | zero =>
    intro i bs fence
    simpa [pcbItemsGo, pcbGo] using filterMap_itemBlock_leaf lines bs
  | succ fuel ih =>
    intro i bs fence
    by_cases h : i < lines.length
    · simp only [pcbItemsGo, pcbGo, if_pos h]
      cases hf : fenceMatch (lines.getD i []) with
      | some ck =>
        obtain ⟨c, k⟩ := ck
        cases fence with
        | none => exact ih (i + 1) bs (some (c, k))
        | some p =>
          obtain ⟨fc, fl⟩ := p
          by_cases hc : c = fc && fl ≤ k
          · simp only [hc, if_true]; exact ih (i + 1) bs none
          · simp only [hc, if_false]; exact ih (i + 1) bs (some (fc, fl))
      | none =>
        cases fence with
        | some f =>
          simp only [Option.isSome_some, reduceIte]
          exact ih (i + 1) bs (some f)
        | none =>
          simp only [Option.isSome_none, Bool.false_eq_true, reduceIte]
          by_cases hsx : setextMatch (nextLineAt lines i) && !isBlank (lines.getD i [])
          · simp only [hsx, if_true, List.filterMap_append, List.filterMap_cons]
            rw [ih (i + 2) (i + 3) none]
            by_cases hg : bs - 1 < i <;> simp [hg, itemBlock]
          · simp only [hsx, Bool.false_eq_true, reduceIte]
            by_cases ha : atxMatch (lines.getD i [])
            · simp only [ha, if_true, List.filterMap_append, List.filterMap_cons]
              rw [ih (i + 1) (i + 2) none]
              by_cases hg : bs - 1 < i <;> simp [hg, itemBlock]
            · simp only [ha, Bool.false_eq_true, reduceIte]
              exact ih (i + 1) bs none
    · simpa [pcbItemsGo, pcbGo, if_neg h] using filterMap_itemBlock_leaf lines bs

/-- Bounds and ordering invariant of the segmenter loop: starting from a
1-based block start `bs` with `1 ≤ bs ≤ i + 1`, every emitted block `b`
satisfies `bs ≤ b.startLine ≤ b.endLine ≤ lines.length`, and the emitted
blocks are pairwise ordered with strictly separated ranges. -/
theorem pcbGo_bounds (lines : List Line) :
    ∀ fuel i bs fence, 1 ≤ bs → bs ≤ i + 1 →
      (∀ b ∈ pcbGo lines fuel i bs fence,
        bs ≤ b.startLine ∧ b.startLine ≤ b.endLine ∧ b.endLine ≤ lines.length) ∧
      (pcbGo lines fuel i bs fence).Pairwise
        (fun a b => a.endLine < b.startLine) := by
  intro fuel
  induction fuel with
  | zero =>
    intro i bs fence h1 _h2
    unfold pcbGo pcbLeaf
    split
    next hle => simp_all
    next => simp
  | succ fuel ih =>
    intro i bs fence h1 h2
    by_cases h : i < lines.length
    · simp only [pcbGo, if_pos h]
      cases hf : fenceMatch (lines.getD i []) with
      | some ck =>
        obtain ⟨c, k⟩ := ck
        cases fence with
        | none =>
          exact ih (i + 1) bs (some (c, k)) h1 (Nat.le_succ_of_le h2)
        | some p =>
          obtain ⟨fc, fl⟩ := p
          by_cases hc : c = fc && fl ≤ k
          · simp only [hc, if_true]
            exact ih (i + 1) bs none h1 (Nat.le_succ_of_le h2)
          · simp only [hc, if_false]
            exact ih (i + 1) bs (some (fc, fl)) h1 (Nat.le_succ_of_le h2)
      | none =>
        cases fence with
        | some f =>
          simp only [Option.isSome_some, reduceIte]
          exact ih (i + 1) bs (some f) h1 (Nat.le_succ_of_le h2)
        | none =>
          simp only [Option.isSome_none, Bool.false_eq_true, reduceIte]
          by_cases hsx : setextMatch (nextLineAt lines i) && !isBlank (lines.getD i [])
          · simp only [hsx, if_true]
            have hrec := ih (i + 2) (i + 3) none (by omega) (by omega)
            constructor
            · intro b hb
              rcases List.mem_append.1 hb with hb1 | hb2
              · have : bs - 1 < i := by
                  by_contra hk
                  simp [hk] at hb1
                simp only [this, if_true, List.mem_singleton] at hb1
                subst hb1
                exact ⟨le_refl _, by show bs ≤ i; omega, by show i ≤ lines.length; omega⟩
              · have := hrec.1 b hb2
                exact ⟨by omega, this.2.1, this.2.2⟩
            · rw [List.pairwise_append]
              refine ⟨?_, hrec.2, ?_⟩
              · split <;> simp
              · intro a ha b hb
                have hb' := (hrec.1 b hb).1
                split at ha
                · simp only [List.mem_singleton] at ha
                  subst ha
                  show i < b.startLine
                  omega
                · simp at ha
          · simp only [hsx, Bool.false_eq_true, reduceIte]
            by_cases ha : atxMatch (lines.getD i [])
            · simp only [ha, if_true]
              have hrec := ih (i + 1) (i + 2) none (by omega) (by omega)
              constructor
              · intro b hb
                rcases List.mem_append.1 hb with hb1 | hb2
                · have : bs - 1 < i := by
                    by_contra hk
                    simp [hk] at hb1
                  simp only [this, if_true, List.mem_singleton] at hb1
                  subst hb1
                  exact ⟨le_refl _, by show bs ≤ i; omega, by show i ≤ lines.length; omega⟩
                · have := hrec.1 b hb2
                  exact ⟨by omega, this.2.1, this.2.2⟩
              · rw [List.pairwise_append]
                refine ⟨?_, hrec.2, ?_⟩
                · split <;> simp
                · intro a ha b hb
                  have hb' := (hrec.1 b hb).1
                  split at ha
                  · simp only [List.mem_singleton] at ha
                    subst ha
                    show i < b.startLine
                    omega
                  · simp at ha
            · simp only [ha, Bool.false_eq_true, reduceIte]
              exact ih (i + 1) bs none h1 (Nat.le_succ_of_le h2)
    · simp only [pcbGo, if_neg h]
      unfold pcbLeaf
      split
      next hle => simp_all
      next => simp

theorem getD_eq_nil_of_le {lines : List Line} {i : Nat}
    (h : lines.length ≤ i) : lines.getD i [] = [] := by
  simp [List.getD_eq_getElem?_getD, List.getElem?_eq_none h]

/-- A Setext underline match on the scan's lookahead needs a real next
line. -/
theorem setext_next_lt {lines : List Line} {i : Nat}
    (h : setextMatch (nextLineAt lines i) = true) : i + 1 < lines.length := by
  by_contra hk
  rw [nextLineAt, getD_eq_nil_of_le (by omega)] at h
  simp [setextMatch] at h

/-- A Setext underline line is never fence-like: it starts with `=` or `-`. -/
theorem fenceMatch_none_of_setext {l : Line} (h : setextMatch l = true) :
    fenceMatch l = none := by
  match l with
  | [] => simp [setextMatch] at h
  | c :: t =>
    simp only [setextMatch, Bool.and_eq_true, Bool.or_eq_true,
      decide_eq_true_eq] at h
    obtain ⟨hc, -⟩ := h
    have hcs : isSpace c = false := by
      rcases hc with hc | hc <;> subst hc <;> decide
    have hcf : (c = backtick || c = '~') = false := by
      rcases hc with hc | hc <;> subst hc <;> decide
    unfold fenceMatch
    rw [List.dropWhile_cons, hcs]
    simp only [Bool.false_eq_true, reduceIte, hcf]

/-- Unfolding step of `codeState`. -/
theorem codeState_succ (lines : List Line) (i : Nat) (h : i < lines.length) :
    codeState lines (i + 1) = fenceStep (codeState lines i) (lines.getD i []) := by
  unfold codeState
  rw [List.take_succ, List.foldl_append]
  simp [List.getD_eq_getElem?_getD, List.getElem?_eq_getElem h]

theorem pcbLeaf_flat (lines : List Line) (bs : Nat) :
    ((pcbLeaf lines bs).map SegItem.block).flatMap itemLines
      = List.range' bs (lines.length + 1 - bs) := by
  unfold pcbLeaf
  split
  next hle => simp [itemLines]
  next hgt =>
    have : lines.length + 1 - bs = 0 := by omega
    simp [this]

theorem range'_glue_two {bs i n : Nat} (h2 : bs ≤ i + 1) (hn : i + 1 < n) :
    List.range' bs (i + 1 - bs) ++
        (i + 1) :: (i + 2) :: List.range' (i + 3) (n + 1 - (i + 3))
      = List.range' bs (n + 1 - bs) := by
  have e2 : (i + 1) :: (i + 2) :: List.range' (i + 3) (n + 1 - (i + 3))
      = List.range' (i + 1) ((n + 1 - (i + 3)) + 1 + 1) := by
    rw [List.range'_succ, List.range'_succ]
  have e3 : i + 1 = bs + (i + 1 - bs) := by omega
  have e5 := List.range'_append_1 bs (i + 1 - bs) ((n + 1 - (i + 3)) + 1 + 1)
  rw [← e3] at e5
  rw [e2, e5]
  congr 1
  omega

theorem range'_glue_one {bs i n : Nat} (h2 : bs ≤ i + 1) (hn : i < n) :
    List.range' bs (i + 1 - bs) ++
        (i + 1) :: List.range' (i + 2) (n + 1 - (i + 2))
      = List.range' bs (n + 1 - bs) := by
  have e2 : (i + 1) :: List.range' (i + 2) (n + 1 - (i + 2))
      = List.range' (i + 1) ((n + 1 - (i + 2)) + 1) := by
    rw [List.range'_succ]
  have e3 : i + 1 = bs + (i + 1 - bs) := by omega
  have e5 := List.range'_append_1 bs (i + 1 - bs) ((n + 1 - (i + 2)) + 1)
  rw [← e3] at e5
  rw [e2, e5]
  congr 1
  omega

/-- Partition invariant of the instrumented scan: with sufficient fuel and
`1 ≤ bs ≤ i + 1`, the lines covered by the emitted items are exactly the
1-based lines from `bs` to the end of the document, in order, each exactly
once. -/
theorem pcbItemsGo_flat (lines : List Line) :
    ∀ fuel i bs fence, lines.length ≤ i + fuel → 1 ≤ bs → bs ≤ i + 1 →
      (pcbItemsGo lines fuel i bs fence).flatMap itemLines
        = List.range' bs (lines.length + 1 - bs) := by
  intro fuel
  induction fuel with
  | zero =>
    intro i bs fence _hfuel _h1 _h2
    exact pcbLeaf_flat lines bs
  | succ fuel ih =>
    intro i bs fence hfuel h1 h2
    by_cases h : i < lines.length
    · simp only [pcbItemsGo, if_pos h]
      cases hf : fenceMatch (lines.getD i []) with
      | some ck =>
        obtain ⟨c, k⟩ := ck
        cases fence with
        | none => exact ih (i + 1) bs (some (c, k)) (by omega) h1 (by omega)
        | some p =>
          obtain ⟨fc, fl⟩ := p
          by_cases hc : c = fc && fl ≤ k
          · simp only [hc, if_true]
            exact ih (i + 1) bs none (by omega) h1 (by omega)
          · simp only [hc, if_false]
            exact ih (i + 1) bs (some (fc, fl)) (by omega) h1 (by omega)
      | none =>
        cases fence with
        | some f =>
          simp only [Option.isSome_some, reduceIte]
          exact ih (i + 1) bs (some f) (by omega) h1 (by omega)
        | none =>
          simp only [Option.isSome_none, Bool.false_eq_true, reduceIte]
          by_cases hsx : setextMatch (nextLineAt lines i) && !isBlank (lines.getD i [])
          · have hnext : i + 1 < lines.length :=
              setext_next_lt (Bool.and_eq_true .. ▸ hsx).1
            simp only [hsx, if_true, List.flatMap_append, List.flatMap_cons]
            rw [ih (i + 2) (i + 3) none (by omega) (by omega) (by omega)]
            have hflat : (if bs - 1 < i
                  then [SegItem.block ⟨bs, i⟩] else []).flatMap itemLines
                = List.range' bs (i + 1 - bs) := by
              by_cases hg : bs - 1 < i
              · simp [hg, itemLines]
              · have : i + 1 - bs = 0 := by omega
                simp [hg, this]
            rw [hflat]
            simpa [itemLines] using range'_glue_two h2 hnext
          · simp only [hsx, Bool.false_eq_true, reduceIte]
            by_cases ha : atxMatch (lines.getD i [])
            · simp only [ha, if_true, List.flatMap_append, List.flatMap_cons]
              rw [ih (i + 1) (i + 2) none (by omega) (by omega) (by omega)]
              have hflat : (if bs - 1 < i
                    then [SegItem.block ⟨bs, i⟩] else []).flatMap itemLines
                  = List.range' bs (i + 1 - bs) := by
                by_cases hg : bs - 1 < i
                · simp [hg, itemLines]
                · have : i + 1 - bs = 0 := by omega
                  simp [hg, this]
              rw [hflat]
              simpa [itemLines] using range'_glue_one h2 h
            · simp only [ha, Bool.false_eq_true, reduceIte]
              exact ih (i + 1) bs none (by omega) h1 (by omega)
    · simp only [pcbItemsGo, if_neg h]
      exact pcbLeaf_flat lines bs

/-- Every emitted content block is nonempty and within the document:
`1 ≤ startLine ≤ endLine ≤ lines.length`. -/
theorem parseContentBlocks_bounds (lines : List Line) :
    ∀ b ∈ parseContentBlocks lines,
      1 ≤ b.startLine ∧ b.startLine ≤ b.endLine ∧ b.endLine ≤ lines.length :=
  (pcbGo_bounds lines lines.length 0 1 none (le_refl 1) (by omega)).1

/-- The emitted blocks are strictly increasing and pairwise disjoint. -/
theorem parseContentBlocks_pairwise (lines : List Line) :
    (parseContentBlocks lines).Pairwise (fun a b => a.endLine < b.startLine) :=
  (pcbGo_bounds lines lines.length 0 1 none (le_refl 1) (by omega)).2

/-- Uniform step of the `findCodeBlockLines` loop: a line is recorded
exactly when a fence is active or the line is fence-like, and the state
advances by `fenceStep`. -/
theorem fcbGo_cons (i : Nat) (f : FenceState) (l : Line) (t : List Line) :
    fcbGo i f (l :: t)
      = (if f.isSome || (fenceMatch l).isSome then [i] else []) ++
          fcbGo (i + 1) (fenceStep f l) t := by
  cases hm : fenceMatch l with
  | some ck =>
    obtain ⟨c, k⟩ := ck
    cases f with
    | none => simp [fcbGo, fenceStep, hm]
    | some p =>
      obtain ⟨fc, fl⟩ := p
      by_cases hc : c = fc && fl ≤ k <;> simp [fcbGo, fenceStep, hm, hc]
  | none =>
    cases f with
    | some p => simp [fcbGo, fenceStep, hm]
    | none => simp [fcbGo, fenceStep, hm]

/-- Any line reached while a fence is active is recorded by
`fcbGo` (stated over the remaining lines `rest` starting at index `i`). -/
theorem fcbGo_mem_of_state :
    ∀ (rest : List Line) (i f_ : Nat) (f : FenceState) (j : Nat), f_ = 0 →
      i ≤ j → j < i + rest.length →
      (rest.take (j - i)).foldl fenceStep f ≠ none →
      j ∈ fcbGo i f rest := by
  intro rest
  induction rest with
  | nil =>
    intro i f_ f j _ h1 h2 _
    simp at h2
    omega
  | cons l t ih =>
    intro i f_ f j hf_ h1 h2 h3
    rw [fcbGo_cons]
    by_cases hij : j = i
    · subst hij
      simp only [Nat.sub_self, List.take_zero, List.foldl_nil] at h3
      cases f with
      | none => exact absurd rfl h3
      | some p =>
        simp
    · have h2' : j < (i + 1) + t.length := by
        simp only [List.length_cons] at h2
        omega
      have h3' : (t.take (j - (i + 1))).foldl fenceStep (fenceStep f l) ≠ none := by
        have e : j - i = (j - (i + 1)) + 1 := by omega
        rw [e, List.take_succ_cons, List.foldl_cons] at h3
        exact h3
      exact List.mem_append_right _
        (ih (i + 1) f_ (fenceStep f l) j hf_ (by omega) h2' h3')

/-- Every line reached while a fence is active (in particular, every line
of an unterminated fence through end of document) is classified as a
code-block line. -/
theorem mem_findCodeBlockLines_of_state {lines : List Line} {i : Nat}
    (h : i < lines.length) (hs : codeState lines i ≠ none) :
    i ∈ findCodeBlockLines lines := by
  have := fcbGo_mem_of_state lines 0 0 none i rfl (Nat.zero_le i)
    (by simpa using h) (by simpa [codeState] using hs)
  simpa [findCodeBlockLines] using this

/-- Heading opacity: every heading-construct line the segmenter records is
reached with no fence active. -/
theorem pcbItemsGo_heads_state (lines : List Line) :
    ∀ fuel i bs fence, fence = codeState lines i →
      ∀ j, SegItem.head j ∈ pcbItemsGo lines fuel i bs fence →
        codeState lines (j - 1) = none := by
  intro fuel
  induction fuel with
  | zero =>
    intro i bs fence _ j hj
    unfold pcbItemsGo at hj
    obtain ⟨b, -, hb⟩ := List.mem_map.1 hj
    simp at hb
  | succ fuel ih =>
    intro i bs fence hst j hj
    by_cases h : i < lines.length
    · simp only [pcbItemsGo, if_pos h] at hj
      have hstep := codeState_succ lines i h
      cases hf : fenceMatch (lines.getD i []) with
      | some ck =>
        obtain ⟨c, k⟩ := ck
        rw [hf] at hj
        cases fence with
        | none =>
          refine ih (i + 1) bs (some (c, k)) ?_ j hj
          rw [hstep, ← hst]
          unfold fenceStep
          rw [hf]
        | some p =>
          obtain ⟨fc, fl⟩ := p
          by_cases hc : c = fc && fl ≤ k
          · simp only [hc, if_true] at hj
            refine ih (i + 1) bs none ?_ j hj
            rw [hstep, ← hst]
            unfold fenceStep
            rw [hf]
            simp [hc]
          · simp only [hc, if_false] at hj
            refine ih (i + 1) bs (some (fc, fl)) ?_ j hj
            rw [hstep, ← hst]
            unfold fenceStep
            rw [hf]
            simp [hc]
      | none =>
        rw [hf] at hj
        have hstep0 : codeState lines (i + 1) = codeState lines i := by
          rw [hstep]
          unfold fenceStep
          rw [hf]
        cases fence with
        | some f =>
          simp only [Option.isSome_some, reduceIte] at hj
          exact ih (i + 1) bs (some f) (by rw [hstep0, ← hst]) j hj
        | none =>
          simp only [Option.isSome_none, Bool.false_eq_true, reduceIte] at hj
          by_cases hsx : setextMatch (nextLineAt lines i) && !isBlank (lines.getD i [])
          · simp only [hsx, if_true] at hj
            rcases List.mem_append.1 hj with hj1 | hj2
            · by_cases hg : bs - 1 < i
              · simp only [hg, if_true, List.mem_singleton] at hj1
                simp at hj1
              · simp [hg] at hj1
            · rcases List.mem_cons.1 hj2 with hj3 | hj4
              · simp only [SegItem.head.injEq] at hj3
                subst hj3
                simpa using hst.symm
              · rcases List.mem_cons.1 hj4 with hj5 | hj6
                · simp only [SegItem.head.injEq] at hj5
                  subst hj5
                  show codeState lines (i + 2 - 1) = none
                  have e : i + 2 - 1 = i + 1 := by omega
                  rw [e, hstep0, ← hst]
                · have hsx1 : setextMatch (nextLineAt lines i) = true :=
                    (Bool.and_eq_true .. ▸ hsx).1
                  have hnext : i + 1 < lines.length := setext_next_lt hsx1
                  have hstep1 := codeState_succ lines (i + 1) hnext
                  have hu : fenceMatch (lines.getD (i + 1) []) = none :=
                    fenceMatch_none_of_setext hsx1
                  refine ih (i + 2) (i + 3) none ?_ j hj6
                  have e1 : codeState lines (i + 1) = none := by
                    rw [hstep0, ← hst]
                  rw [hstep1, e1]
                  unfold fenceStep
                  rw [hu]
          · simp only [hsx, Bool.false_eq_true, reduceIte] at hj
            by_cases ha : atxMatch (lines.getD i [])
            · simp only [ha, if_true] at hj
              rcases List.mem_append.1 hj with hj1 | hj2
              · by_cases hg : bs - 1 < i
                · simp only [hg, if_true, List.mem_singleton] at hj1
                  simp at hj1
                · simp [hg] at hj1
              · rcases List.mem_cons.1 hj2 with hj3 | hj4
                · simp only [SegItem.head.injEq] at hj3
                  subst hj3
                  simpa using hst.symm
                · exact ih (i + 1) (i + 2) none (by rw [hstep0, ← hst]) j hj4
            · simp only [ha, Bool.false_eq_true, reduceIte] at hj
              exact ih (i + 1) bs none (by rw [hstep0, ← hst]) j hj
    · simp only [pcbItemsGo, if_neg h] at hj
      obtain ⟨b, -, hb⟩ := List.mem_map.1 hj
      simp at hb

/-- With no heading items, the instrumented scan emits just the final
block. -/
theorem pcbItemsGo_no_heads (lines : List Line) :
    ∀ fuel i bs fence,
      (pcbItemsGo lines fuel i bs fence).filterMap itemHead = [] →
      pcbItemsGo lines fuel i bs fence = (pcbLeaf lines bs).map SegItem.block := by
  intro fuel
  induction fuel with
  | zero => intro i bs fence _; rfl
  | succ fuel ih =>
    intro i bs fence hh
    by_cases h : i < lines.length
    · simp only [pcbItemsGo, if_pos h] at hh ⊢
      cases hf : fenceMatch (lines.getD i []) with
      | some ck =>
        obtain ⟨c, k⟩ := ck
        rw [hf] at hh
        cases fence with
        | none => exact ih (i + 1) bs (some (c, k)) hh
        | some p =>
          obtain ⟨fc, fl⟩ := p
          by_cases hc : c = fc && fl ≤ k
          · simp only [hc, if_true] at hh ⊢
            exact ih (i + 1) bs none hh
          · simp only [hc, if_false] at hh ⊢
            exact ih (i + 1) bs (some (fc, fl)) hh
      | none =>
        rw [hf] at hh
        cases fence with
        | some f =>
          simp only [Option.isSome_some, reduceIte] at hh ⊢
          exact ih (i + 1) bs (some f) hh
        | none =>
          simp only [Option.isSome_none, Bool.false_eq_true, reduceIte] at hh ⊢
          by_cases hsx : setextMatch (nextLineAt lines i) && !isBlank (lines.getD i [])
          · simp only [hsx, if_true, List.filterMap_append, List.filterMap_cons,
              itemHead] at hh
            simp at hh
          · simp only [hsx, Bool.false_eq_true, reduceIte] at hh ⊢
            by_cases ha : atxMatch (lines.getD i [])
            · simp only [ha, if_true, List.filterMap_append, List.filterMap_cons,
                itemHead] at hh
              simp at hh
            · simp only [ha, Bool.false_eq_true, reduceIte] at hh ⊢
              exact ih (i + 1) bs none hh
    · simp only [pcbItemsGo, if_neg h]

/-- Membership characterization of one `findReferenceLinkDefinitions`
iteration. -/
theorem frdLine_mem {lines : List Line} {cbl : List Nat} {i : Nat}
    {p : Nat × List Char} (h : p ∈ frdLine lines cbl i) :
    p.1 = i + 1 ∧ cbl.contains i = false ∧
    refDefStrict (lines.getD i []) = some p.2 := by
  unfold frdLine at h
  split at h
  next hc => simp at h
  next hc =>
    split at h
    next lab hd =>
      simp only [List.mem_singleton] at h
      subst h
      exact ⟨rfl, by simpa using hc, hd⟩
    next hd => simp at h

/-- Membership characterization of `findReferenceLinkDefinitions`: each
entry is at a line of its range, outside code blocks, with a strict
definition match. -/
theorem frd_mem {lines : List Line} {s e : Nat} {p : Nat × List Char}
    (h : p ∈ findReferenceLinkDefinitions lines s e) :
    s ≤ p.1 ∧ p.1 ≤ e ∧
    (findCodeBlockLines lines).contains (p.1 - 1) = false ∧
    refDefStrict (lines.getD (p.1 - 1) []) = some p.2 := by
  unfold findReferenceLinkDefinitions at h
  obtain ⟨i, hi, hp⟩ := List.mem_flatMap.1 h
  obtain ⟨h1, h2, h3⟩ := frdLine_mem hp
  rw [List.mem_range'_1] at hi
  have e1 : p.1 - 1 = i := by omega
  rw [e1]
  exact ⟨by omega, by omega, h2, h3⟩

/-- Membership characterization of one `findReferenceLinkUsages`
iteration. -/
theorem fruLine_mem {lines : List Line} {cbl : List Nat} {i : Nat}
    {p : Nat × List Char} (h : p ∈ fruLine lines cbl i) :
    p.1 = i + 1 ∧ cbl.contains i = false ∧
    refDefStrict (lines.getD i []) = none ∧
    (p.2 ∈ fullRefLabels (lines.getD i []) ∨
     p.2 ∈ shortcutRefLabels (lines.getD i [])) := by
  unfold fruLine at h
  split at h
  next hc => simp at h
  next hc =>
    simp only [] at h
    split at h
    next hd => simp at h
    next hd =>
      have hdn : refDefStrict (lines.getD i []) = none := by
        cases hx : refDefStrict (lines.getD i []) with
        | none => rfl
        | some lab => rw [hx] at hd; simp at hd
      rcases List.mem_append.1 h with h1 | h1
      · obtain ⟨lab, hlab, hp⟩ := List.mem_map.1 h1
        subst hp
        exact ⟨rfl, by simpa using hc, hdn, Or.inl hlab⟩
      · obtain ⟨lab, hlab, hp⟩ := List.mem_map.1 h1
        subst hp
        exact ⟨rfl, by simpa using hc, hdn, Or.inr hlab⟩

/-- Membership characterization of `findReferenceLinkUsages`. -/
theorem fru_mem {lines : List Line} {s e : Nat} {p : Nat × List Char}
    (h : p ∈ findReferenceLinkUsages lines s e) :
    s ≤ p.1 ∧ p.1 ≤ e ∧
    (findCodeBlockLines lines).contains (p.1 - 1) = false ∧
    refDefStrict (lines.getD (p.1 - 1) []) = none ∧
    (p.2 ∈ fullRefLabels (lines.getD (p.1 - 1) []) ∨
     p.2 ∈ shortcutRefLabels (lines.getD (p.1 - 1) [])) := by
  unfold findReferenceLinkUsages at h
  obtain ⟨i, hi, hp⟩ := List.mem_flatMap.1 h
  obtain ⟨h1, h2, h3, h4⟩ := fruLine_mem hp
  rw [List.mem_range'_1] at hi
  have e1 : p.1 - 1 = i := by omega
  rw [e1]
  exact ⟨by omega, by omega, h2, h3, h4⟩

/-- Claim C2, code evaluation at the failing input: on a block whose
definition is followed only by a blank line and a thematic break, the
checker reports one NotAtEnd violation at the definition's line (the claim
and the repository's own regression test for issue 1 say it must report
none: the thematic break line is counted as content). -/
theorem c2_thematic_break_eval :
    referenceLinkSectionPlacement c2doc =
      [⟨6, String.toList "link", ViolationKind.notAtEnd⟩] ∧
    findLastContentLine c2doc 3 8 = 8 := by
  constructor <;> rfl

/-- Claim C3, code evaluation at the failing input: a multi-line
definition's continuation line is treated as ordinary content by
`findLastContentLine`, so a definition whose continuation ends the block
still gets a NotAtEnd violation (the claim and the repository's regression
test for issue 4 say it must get none). -/
theorem c3_multiline_def_eval :
    referenceLinkSectionPlacement c3doc =
      [⟨6, String.toList "^1", ViolationKind.notAtEnd⟩] ∧
    findLastContentLine c3doc 3 8 = 7 := by
  constructor <;> rfl

/-- Claim C9, code evaluation at the failing input: a collapsed reference
`[label][]` is recorded by neither the full-reference nor the
shortcut-reference pattern, so the scanner records no usage at all from a
line containing only a collapsed reference (the claim and the source's own
pattern list say it is recorded). -/
theorem c9_collapsed_eval :
    findReferenceLinkUsages c9doc 1 1 = [] ∧
    firstUsageBlock c9doc (String.toList "label") = none := by
  constructor <;> rfl

/-- Claim C4, counterexample: the label `unused` is used nowhere in the
document, yet the checker reports a NotAtEnd violation for its definition,
because the NotAtEnd check runs whether or not the label has a first-usage
block. -/
theorem c4_counterexample :
    firstUsageBlock c4doc (String.toList "unused") = none ∧
    referenceLinkSectionPlacement c4doc =
      [⟨3, String.toList "unused", ViolationKind.notAtEnd⟩] := by
  constructor <;> rfl

/-- Claim C6, counterexample: the span between the adjacent headings on
lines 1 and 2 is empty, and no block (in particular not one with
`endLine = startLine - 1`) is emitted for it: the segmenter only emits a
block when the guard `i > blockStartLine - 1` holds. -/
theorem c6_counterexample :
    pcbHeads c6doc = [1, 2] ∧
    ContentBlock.mk 2 1 ∉ parseContentBlocks c6doc ∧
    parseContentBlocks c6doc = [⟨3, 3⟩] := by
  refine ⟨by rfl, ?_, by rfl⟩
  decide

/-- Claim C8, counterexample: a fence opened with indent 2 is closed by a
fence-like line of the same character and length but indent 0, so closing
does not require the closing indent to be at least the opening indent; in
consequence the heading on line 3 is detected and the document splits into
two blocks instead of staying inside the fence. -/
theorem c8_counterexample :
    codeState c8doc 1 = some ('~', 4) ∧
    fenceIndent (c8doc.getD 1 []) < fenceIndent (c8doc.getD 0 []) ∧
    fenceMatch (c8doc.getD 1 []) = some ('~', 4) ∧
    codeState c8doc 2 = none ∧
    parseContentBlocks c8doc = [⟨1, 2⟩, ⟨4, 4⟩] := by
  refine ⟨by rfl, by decide, by rfl, by rfl, by rfl⟩

/-- Claim C6 (amended): the segmenter emits only nonempty heading-delimited
spans — every emitted block satisfies
`1 ≤ startLine ≤ endLine ≤ lines.length`; an empty span (a heading
immediately followed by another heading or by document end) yields no block
in the output. -/
theorem c6_blocks_nonempty (lines : List Line) :
    ∀ b ∈ parseContentBlocks lines,
      1 ≤ b.startLine ∧ b.startLine ≤ b.endLine ∧ b.endLine ≤ lines.length :=
  parseContentBlocks_bounds lines

/-- Witness for C6 (amended) at a concrete document. -/
theorem c6_blocks_nonempty_witness :
    1 ≤ (ContentBlock.mk 3 3).startLine ∧
    (ContentBlock.mk 3 3).startLine ≤ (ContentBlock.mk 3 3).endLine ∧
    (ContentBlock.mk 3 3).endLine ≤ c6doc.length :=
  c6_blocks_nonempty c6doc ⟨3, 3⟩ (by decide)

/-- Claim C7: the blocks of a document are strictly increasing and pairwise
disjoint, each nonempty within the document; the instrumented scan shows
that the blocks together with the heading-construct lines cover the 1-based
lines `1, ..., lines.length` exactly once, in order; and a document with at
least one line and no headings yields exactly one block spanning all
lines. -/
theorem c7_partition (lines : List Line) :
    (pcbItems lines).filterMap itemBlock = parseContentBlocks lines ∧
    (pcbItems lines).flatMap itemLines = List.range' 1 lines.length ∧
    (parseContentBlocks lines).Pairwise (fun a b => a.endLine < b.startLine) ∧
    (∀ b ∈ parseContentBlocks lines,
      1 ≤ b.startLine ∧ b.startLine ≤ b.endLine ∧ b.endLine ≤ lines.length) ∧
    (pcbHeads lines = [] → lines ≠ [] →
      parseContentBlocks lines = [⟨1, lines.length⟩]) := by
  refine ⟨pcbItemsGo_blocks lines lines.length 0 1 none, ?_,
    parseContentBlocks_pairwise lines, parseContentBlocks_bounds lines, ?_⟩
  · have := pcbItemsGo_flat lines lines.length 0 1 none (by omega)
      (le_refl 1) (by omega)
    simpa using this
  · intro hh hne
    have h1 : pcbItems lines = (pcbLeaf lines 1).map SegItem.block :=
      pcbItemsGo_no_heads lines lines.length 0 1 none hh
    have h2 : parseContentBlocks lines = pcbLeaf lines 1 := by
      unfold parseContentBlocks
      rw [← pcbItemsGo_blocks lines lines.length 0 1 none]
      show (pcbItems lines).filterMap itemBlock = _
      rw [h1]
      exact filterMap_itemBlock_leaf lines 1
    rw [h2]
    unfold pcbLeaf
    have hlen : 1 ≤ lines.length := by
      cases lines with
      | nil => exact absurd rfl hne
      | cons a t => simp
    rw [if_pos hlen]

/-- Witness for C7 at a concrete two-line document with no headings. -/
theorem c7_partition_witness :
    parseContentBlocks (mkDoc ["alpha", "beta"]) = [⟨1, 2⟩] :=
  (c7_partition (mkDoc ["alpha", "beta"])).2.2.2.2 (by rfl) (by decide)

/-- Claim C8 (amended): a fence-like line (3 or more backticks or tildes
after optional indent) opens a fence when none is active; while a fence is
active, a fence-like line closes it exactly when its fence character matches
the opening character and its run length is at least the opening run length
— the indent is not consulted; non-fence-like lines never change the fence
state, every line reached while a fence is active (including all lines of an
unterminated fence, through end of document) is classified as a code-block
line, no heading-construct line is recorded while a fence is active, and no
definition or usage is recorded at a code-block line. -/
theorem c8_fence_behavior :
    (∀ l c k, fenceMatch l = some (c, k) → fenceStep none l = some (c, k)) ∧
    (∀ l c k fc fl, fenceMatch l = some (c, k) →
      ((fenceStep (some (fc, fl)) l = none) ↔ (c = fc ∧ fl ≤ k)) ∧
      (¬(c = fc ∧ fl ≤ k) → fenceStep (some (fc, fl)) l = some (fc, fl))) ∧
    (∀ st l, fenceMatch l = none → fenceStep st l = st) ∧
    (∀ lines i, i < lines.length → codeState lines i ≠ none →
      i ∈ findCodeBlockLines lines) ∧
    (∀ lines j, j ∈ pcbHeads lines → codeState lines (j - 1) = none) ∧
    (∀ lines s e i, i ∈ findCodeBlockLines lines →
      (∀ p ∈ findReferenceLinkDefinitions lines s e, p.1 ≠ i + 1) ∧
      (∀ p ∈ findReferenceLinkUsages lines s e, p.1 ≠ i + 1)) := by
  refine ⟨?_, ?_, ?_, ?_, ?_, ?_⟩
  · intro l c k h
    unfold fenceStep
    rw [h]
  · intro l c k fc fl h
    unfold fenceStep
    rw [h]
    by_cases hq : c = fc && fl ≤ k
    · have hq' : c = fc ∧ fl ≤ k := by
        simpa [Bool.and_eq_true, decide_eq_true_eq] using hq
      simp [hq, hq']
    · have hq' : ¬(c = fc ∧ fl ≤ k) := by
        simpa [Bool.and_eq_true, decide_eq_true_eq] using hq
      simp [hq, hq']
  · intro st l h
    unfold fenceStep
    rw [h]
  · intro lines i h hs
    exact mem_findCodeBlockLines_of_state h hs
  · intro lines j hj
    obtain ⟨it, hit, hhead⟩ := List.mem_filterMap.1 hj
    have : it = SegItem.head j := by
      cases it with
      | block b => simp [itemHead] at hhead
      | head j2 => simp [itemHead] at hhead; rw [hhead]
    subst this
    exact pcbItemsGo_heads_state lines lines.length 0 1 none rfl j hit
  · intro lines s e i hi
    constructor
    · intro p hp hkey
      obtain ⟨-, -, hc, -⟩ := frd_mem hp
      rw [hkey] at hc
      simp only [Nat.add_sub_cancel] at hc
      rw [List.contains_eq_any_beq] at hc
      simp [List.any_eq_true] at hc
      exact hc i hi rfl
    · intro p hp hkey
      obtain ⟨-, -, hc, -, -⟩ := fru_mem hp
      rw [hkey] at hc
      simp only [Nat.add_sub_cancel] at hc
      rw [List.contains_eq_any_beq] at hc
      simp [List.any_eq_true] at hc
      exact hc i hi rfl

/-- Witness for C8 (amended): a four-tilde line opens a fence. -/
theorem c8_fence_behavior_witness :
    fenceStep none (String.toList "~~~~") = some ('~', 4) :=
  c8_fence_behavior.1 (String.toList "~~~~") '~' 4 (by rfl)

/-! ## Checker correlation lemmas -/

theorem flatMap_eq_of_filter_single {α β : Type} {l : List α} {p : α → Bool}
    {x : α} (g : α → List β) (hx : l.filter p = [x])
    (hz : ∀ a ∈ l, p a = false → g a = []) : l.flatMap g = g x := by
  induction l with
  | nil => simp at hx
  | cons b t ih =>
    rw [List.filter_cons] at hx
    by_cases hb : p b
    · simp only [hb, if_true, List.cons.injEq] at hx
      obtain ⟨rfl, hx2⟩ := hx
      have ht : t.flatMap g = [] := by
        rw [List.flatMap_eq_nil_iff]
        intro a ha
        by_cases hpa : p a
        · exact absurd (List.mem_filter.2 ⟨ha, hpa⟩) (by simp [hx2])
        · exact hz a (List.mem_cons_of_mem _ ha) (by simpa using hpa)
      simp [List.flatMap_cons, ht]
    · simp only [hb, if_false] at hx
      have hgb : g b = [] := hz b (List.mem_cons_self b t) (by simpa using hb)
      rw [List.flatMap_cons, hgb, List.nil_append]
      exact ih hx (fun a ha hpa => hz a (List.mem_cons_of_mem _ ha) hpa)

theorem nodup_filter_beq {α : Type} [BEq α] [LawfulBEq α] {l : List α} {a : α}
    (hd : l.Nodup) (ha : a ∈ l) : l.filter (fun x => x == a) = [a] := by
  induction l with
  | nil => simp at ha
  | cons b t ih =>
    rw [List.nodup_cons] at hd
    rw [List.filter_cons]
    rcases List.mem_cons.1 ha with heq | hat
    · subst heq
      simp only [beq_self_eq_true, reduceIte]
      have ht : t.filter (fun x => x == a) = [] := by
        rw [List.filter_eq_nil_iff]
        intro x hx hbeq
        rw [beq_iff_eq] at hbeq
        subst hbeq
        exact hd.1 hx
      rw [ht]
    · have hba : (b == a) = false := by
        rw [beq_eq_false_iff_ne]
        rintro rfl
        exact hd.1 hat
      simp only [hba, Bool.false_eq_true, reduceIte]
      exact ih hd.2 hat

/-- A nonempty `frdLine` is the singleton of its member. -/
theorem frdLine_eq_of_mem {lines : List Line} {cbl : List Nat} {i : Nat}
    {p : Nat × List Char} (h : p ∈ frdLine lines cbl i) :
    frdLine lines cbl i = [p] := by
  unfold frdLine at h ⊢
  split at h
  next hc => simp at h
  next hc =>
    split at h
    next lab hd =>
      simp only [List.mem_singleton] at h
      subst h
      simp [hc]
      simpa using hc
    next hd => simp at h

/-- The definitions of a range have one entry per definition line: filtering
the list at a member's line number leaves exactly that member. -/
theorem frd_filter_key {lines : List Line} {s e d : Nat} {lab : List Char}
    (h : (d, lab) ∈ findReferenceLinkDefinitions lines s e) :
    (findReferenceLinkDefinitions lines s e).filter (fun q => q.1 == d)
      = [(d, lab)] := by
  obtain ⟨i0, hi0, hp0⟩ := List.mem_flatMap.1 h
  have hkey := (frdLine_mem hp0).1
  unfold findReferenceLinkDefinitions
  rw [List.filter_flatMap]
  have step : (List.range' (s - 1) (e - (s - 1))).flatMap
      (fun i => (frdLine lines (findCodeBlockLines lines) i).filter
        (fun q => q.1 == d))
      = (frdLine lines (findCodeBlockLines lines) i0).filter
          (fun q => q.1 == d) := by
    apply flatMap_eq_of_filter_single _
      (nodup_filter_beq (List.nodup_range' _ _) hi0)
    intro a ha hne
    rw [List.filter_eq_nil_iff]
    intro q hq hqd
    have := (frdLine_mem hq).1
    rw [beq_iff_eq] at hqd
    rw [beq_eq_false_iff_ne] at hne
    omega
  rw [step, frdLine_eq_of_mem hp0, List.filter_cons]
  simp

/-- Every violation a single definition contributes carries that
definition's line number and label. -/
theorem defViolation_fields {m : List (List Char × ContentBlock)}
    {b : ContentBlock} {lcl ln : Nat} {lab : List Char} {v : Violation}
    (h : v ∈ defViolation m b lcl ln lab) :
    v.lineNumber = ln ∧ v.label = lab := by
  unfold defViolation at h
  split at h
  next ub _ =>
    split at h
    next =>
      simp only [List.mem_singleton] at h
      subst h
      exact ⟨rfl, rfl⟩
    next =>
      split at h
      next =>
        simp only [List.mem_singleton] at h
        subst h
        exact ⟨rfl, rfl⟩
      next => simp at h
  next =>
    split at h
    next =>
      simp only [List.mem_singleton] at h
      subst h
      exact ⟨rfl, rfl⟩
    next => simp at h

/-- A `CrossBlock` violation can only arise when the label has a first-usage
block in the map. -/
theorem defViolation_cross_lookup {m : List (List Char × ContentBlock)}
    {b : ContentBlock} {lcl ln : Nat} {lab : List Char} {v : Violation}
    (h : v ∈ defViolation m b lcl ln lab)
    (hk : v.kind = ViolationKind.crossBlock) :
    (m.lookup (lab.map Char.toLower)).isSome := by
  unfold defViolation at h
  split at h
  next ub heq => rw [heq]; rfl
  next =>
    split at h
    next =>
      simp only [List.mem_singleton] at h
      subst h
      simp at hk
    next => simp at h

/-- Every violation a block contributes comes from one of the block's
definitions. -/
theorem blockViolations_mem {lines : List Line}
    {m : List (List Char × ContentBlock)} {b : ContentBlock} {v : Violation}
    (h : v ∈ blockViolations lines m b) :
    ∃ q ∈ findReferenceLinkDefinitions lines b.startLine b.endLine,
      v ∈ defViolation m b (findLastContentLine lines b.startLine b.endLine)
        q.1 q.2 := by
  unfold blockViolations at h
  simp only [] at h
  split at h
  next => simp at h
  next =>
    obtain ⟨q, hq, hv⟩ := List.mem_flatMap.1 h
    exact ⟨q, hq, hv⟩

/-- Line-number bounds of a block's violations. -/
theorem blockViolations_line_bounds {lines : List Line}
    {m : List (List Char × ContentBlock)} {b : ContentBlock} {v : Violation}
    (h : v ∈ blockViolations lines m b) :
    b.startLine ≤ v.lineNumber ∧ v.lineNumber ≤ b.endLine := by
  obtain ⟨q, hq, hv⟩ := blockViolations_mem h
  obtain ⟨h1, h2, -⟩ := frd_mem hq
  have := (defViolation_fields hv).1
  omega

theorem nodup_of_pairwise_bounds :
    ∀ l : List ContentBlock,
      l.Pairwise (fun a b => a.endLine < b.startLine) →
      (∀ b ∈ l, b.startLine ≤ b.endLine) → l.Nodup := by
  intro l
  induction l with
  | nil => intro _ _; simp
  | cons b t ih =>
    intro hp hb
    rw [List.pairwise_cons] at hp
    rw [List.nodup_cons]
    refine ⟨?_, ih hp.2 (fun x hx => hb x (List.mem_cons_of_mem _ hx))⟩
    intro hbt
    have h1 := hp.1 b hbt
    have h2 := hb b (List.mem_cons_self b t)
    omega

/-- The blocks of a document are distinct. -/
theorem parseContentBlocks_nodup (lines : List Line) :
    (parseContentBlocks lines).Nodup :=
  nodup_of_pairwise_bounds _ (parseContentBlocks_pairwise lines)
    (fun b hb => (parseContentBlocks_bounds lines b hb).2.1)

/-- Two distinct blocks of a document have disjoint line ranges. -/
theorem parseContentBlocks_disjoint {lines : List Line} {a b : ContentBlock}
    (ha : a ∈ parseContentBlocks lines) (hb : b ∈ parseContentBlocks lines)
    (hne : a ≠ b) : a.endLine < b.startLine ∨ b.endLine < a.startLine := by
  have hp := parseContentBlocks_pairwise lines
  have key : ∀ l : List ContentBlock,
      l.Pairwise (fun x y => x.endLine < y.startLine) →
      a ∈ l → b ∈ l →
      a = b ∨ a.endLine < b.startLine ∨ b.endLine < a.startLine := by
    intro l
    induction l with
    | nil => intro _ h; simp at h
    | cons c t ih =>
      intro hp2 ha2 hb2
      rw [List.pairwise_cons] at hp2
      rcases List.mem_cons.1 ha2 with rfl | hat
      · rcases List.mem_cons.1 hb2 with rfl | hbt
        · exact Or.inl rfl
        · exact Or.inr (Or.inl (hp2.1 b hbt))
      · rcases List.mem_cons.1 hb2 with rfl | hbt
        · exact Or.inr (Or.inr (hp2.1 a hat))
        · exact ih hp2.2 hat hbt
  rcases key _ hp ha hb with rfl | h
  · exact absurd rfl hne
  · exact h

/-- The violations of one block, filtered at one of its definition lines,
are exactly the violations of that definition. -/
theorem blockViolations_filter_at {lines : List Line}
    {m : List (List Char × ContentBlock)} {B : ContentBlock} {d : Nat}
    {lab : List Char}
    (hd : (d, lab) ∈ findReferenceLinkDefinitions lines B.startLine B.endLine) :
    (blockViolations lines m B).filter (fun v => v.lineNumber == d)
      = defViolation m B (findLastContentLine lines B.startLine B.endLine)
          d lab := by
  unfold blockViolations
  simp only []
  have hnonempty :
      (findReferenceLinkDefinitions lines B.startLine B.endLine).isEmpty
        = false := by
    rw [List.isEmpty_eq_false]
    intro hnil
    rw [hnil] at hd
    simp at hd
  simp only [hnonempty, Bool.false_eq_true, reduceIte]
  rw [List.filter_flatMap]
  have hz : ∀ q ∈ findReferenceLinkDefinitions lines B.startLine B.endLine,
      (fun q : Nat × List Char => q.1 == d) q = false →
      (defViolation m B (findLastContentLine lines B.startLine B.endLine)
          q.1 q.2).filter (fun v => v.lineNumber == d) = [] := by
    intro q _ hqbeq
    rw [List.filter_eq_nil_iff]
    intro v hv hvd
    have h1 := (defViolation_fields hv).1
    rw [beq_iff_eq] at hvd
    have h2 : q.1 ≠ d := by simpa using hqbeq
    omega
  have hstep := flatMap_eq_of_filter_single
    (fun q : Nat × List Char =>
      (defViolation m B (findLastContentLine lines B.startLine B.endLine)
          q.1 q.2).filter (fun v => v.lineNumber == d))
    (frd_filter_key hd) hz
  rw [hstep]
  rw [List.filter_eq_self]
  intro v hv
  rw [(defViolation_fields hv).1]
  exact beq_self_eq_true d

/-- Master correlation lemma: the whole checker's violation list, filtered
at a definition's line, equals that single definition's violations. -/
theorem checker_filter_at_def {lines : List Line} {B : ContentBlock} {d : Nat}
    {lab : List Char} (hB : B ∈ parseContentBlocks lines)
    (hd : (d, lab) ∈ findReferenceLinkDefinitions lines B.startLine B.endLine) :
    (referenceLinkSectionPlacement lines).filter (fun v => v.lineNumber == d)
      = defViolation (labelUsageBlock lines) B
          (findLastContentLine lines B.startLine B.endLine) d lab := by
  have hdb := frd_mem hd
  unfold referenceLinkSectionPlacement
  simp only []
  rw [List.filter_flatMap]
  have hsingle : (parseContentBlocks lines).filter (fun b' => b' == B) = [B] :=
    nodup_filter_beq (parseContentBlocks_nodup lines) hB
  have hz : ∀ b' ∈ parseContentBlocks lines,
      (fun b' : ContentBlock => b' == B) b' = false →
      (blockViolations lines (labelUsageBlock lines) b').filter
        (fun v => v.lineNumber == d) = [] := by
    intro b' hb' hbeq
    rw [List.filter_eq_nil_iff]
    intro v hv hvd
    rw [beq_iff_eq] at hvd
    have hlines := blockViolations_line_bounds hv
    have hne : b' ≠ B := by simpa using hbeq
    have h1 : B.startLine ≤ d := hdb.1
    have h2 : d ≤ B.endLine := hdb.2.1
    rcases parseContentBlocks_disjoint hb' hB hne with hlt | hlt <;> omega
  have hstep := flatMap_eq_of_filter_single
    (fun b' => (blockViolations lines (labelUsageBlock lines) b').filter
      (fun v => v.lineNumber == d)) hsingle hz
  rw [hstep]
  exact blockViolations_filter_at hd

/-- The cross-block example document of the rule's test suite. -/
def c1doc : List Line :=
  mkDoc ["Development commands", "--------------------", "",
         "This is a polyglot package supporting Deno, Node.js, and Bun.",
         "Use [mise] to manage runtime versions.", "", "### Package manager", "",
         "This project uses Deno as the primary development tool.", "",
         "[mise]: https://mise.jdx.dev/", "", "### Quality checks", "",
         "Some content here."]

/-- A same-block document with prose after the definition. -/
def c5doc : List Line :=
  mkDoc ["# S", "", "Text with a [link][example].", "",
         "[example]: https://example.com/", "", "More content after."]

/-- A definition line that also contains full-reference link syntax. -/
def c10doc : List Line :=
  mkDoc ["[lab]: https://example.com/ see [text][lab]", "x"]

/-- Claim C1: for a definition `(d, lab)` of block `B` whose label
(compared case-insensitively) has its first usage recorded in a different
block `A`, the checker's violations at line `d` are exactly one CrossBlock
violation anchored at the definition's start line. -/
theorem c1_cross_block_unique (lines : List Line) (A B : ContentBlock)
    (d : Nat) (lab : List Char)
    (hB : B ∈ parseContentBlocks lines)
    (hd : (d, lab) ∈ findReferenceLinkDefinitions lines B.startLine B.endLine)
    (hA : firstUsageBlock lines (lab.map Char.toLower) = some A)
    (hAB : A ≠ B) :
    (referenceLinkSectionPlacement lines).filter (fun v => v.lineNumber == d)
      = [⟨d, lab, ViolationKind.crossBlock⟩] := by
  rw [checker_filter_at_def hB hd]
  unfold defViolation
  unfold firstUsageBlock at hA
  rw [hA]
  have hP : A.startLine ≠ B.startLine ∨ A.endLine ≠ B.endLine := by
    by_contra hc
    push_neg at hc
    apply hAB
    obtain ⟨a1, a2⟩ := A
    obtain ⟨b1, b2⟩ := B
    simp_all
  rcases hP with h | h <;> simp [h]

/-- Witness for C1 at the cross-block example document. -/
theorem c1_cross_block_unique_witness :
    (referenceLinkSectionPlacement c1doc).filter (fun v => v.lineNumber == 11)
      = [⟨11, String.toList "mise", ViolationKind.crossBlock⟩] :=
  c1_cross_block_unique c1doc ⟨3, 6⟩ ⟨8, 12⟩ 11 (String.toList "mise")
    (by decide) (by decide) (by rfl) (by decide)

/-- Claim C5: for a definition `(d, lab)` of block `B` whose label's first
usage is in `B` itself, the checker's violations at line `d` are exactly one
NotAtEnd violation when `d` is strictly before the block's last content
line, and nothing otherwise — in particular never a CrossBlock violation,
and never both kinds for one definition. -/
theorem c5_same_block_notAtEnd (lines : List Line) (B : ContentBlock)
    (d : Nat) (lab : List Char)
    (hB : B ∈ parseContentBlocks lines)
    (hd : (d, lab) ∈ findReferenceLinkDefinitions lines B.startLine B.endLine)
    (hA : firstUsageBlock lines (lab.map Char.toLower) = some B) :
    (referenceLinkSectionPlacement lines).filter (fun v => v.lineNumber == d)
      = if d < findLastContentLine lines B.startLine B.endLine
        then [⟨d, lab, ViolationKind.notAtEnd⟩] else [] := by
  rw [checker_filter_at_def hB hd]
  unfold defViolation
  unfold firstUsageBlock at hA
  rw [hA]
  simp

/-- Witness for C5 at a concrete same-block document. -/
theorem c5_same_block_notAtEnd_witness :
    (referenceLinkSectionPlacement c5doc).filter (fun v => v.lineNumber == 5)
      = if 5 < findLastContentLine c5doc 2 7
        then [⟨5, String.toList "example", ViolationKind.notAtEnd⟩] else [] :=
  c5_same_block_notAtEnd c5doc ⟨2, 7⟩ 5 (String.toList "example")
    (by decide) (by decide) (by rfl)

/-- Claim C4 (amended): a definition whose label is used nowhere gets no
CrossBlock violation — the checker's violations at its line are exactly one
NotAtEnd violation when the definition is strictly before the block's last
content line, and nothing otherwise.  (The original claim, that such a
definition can produce no violation at all, is refuted by
`c4_counterexample`.) -/
theorem c4_unused_label_no_crossblock (lines : List Line) (B : ContentBlock)
    (d : Nat) (lab : List Char)
    (hB : B ∈ parseContentBlocks lines)
    (hd : (d, lab) ∈ findReferenceLinkDefinitions lines B.startLine B.endLine)
    (hnone : firstUsageBlock lines (lab.map Char.toLower) = none) :
    (referenceLinkSectionPlacement lines).filter (fun v => v.lineNumber == d)
      = if d < findLastContentLine lines B.startLine B.endLine
        then [⟨d, lab, ViolationKind.notAtEnd⟩] else [] := by
  rw [checker_filter_at_def hB hd]
  unfold defViolation
  unfold firstUsageBlock at hnone
  rw [hnone]

/-- Witness for C4 (amended) at the unused-label document. -/
theorem c4_unused_label_no_crossblock_witness :
    (referenceLinkSectionPlacement c4doc).filter (fun v => v.lineNumber == 3)
      = if 3 < findLastContentLine c4doc 2 5
        then [⟨3, String.toList "unused", ViolationKind.notAtEnd⟩] else [] :=
  c4_unused_label_no_crossblock c4doc ⟨2, 5⟩ 3 (String.toList "unused")
    (by decide) (by decide) (by rfl)

/-- Claim C10: the usage scanner records nothing from a line matching the
strict definition pattern — every recorded usage sits on a line whose text
does not match it, so link syntax later on a definition line is ignored —
and a label absent from the first-usage map can never have a CrossBlock
violation reported for any of its definitions. -/
theorem c10_def_line_usages (lines : List Line) :
    (∀ s e p, p ∈ findReferenceLinkUsages lines s e →
      refDefStrict (lines.getD (p.1 - 1) []) = none) ∧
    (∀ lab, firstUsageBlock lines lab = none →
      ∀ v ∈ referenceLinkSectionPlacement lines,
        v.label.map Char.toLower = lab → v.kind ≠ ViolationKind.crossBlock) := by
  constructor
  · intro s e p hp
    exact (fru_mem hp).2.2.2.1
  · intro lab hnone v hv hlab hkind
    unfold referenceLinkSectionPlacement at hv
    simp only [] at hv
    obtain ⟨b, hb, hvb⟩ := List.mem_flatMap.1 hv
    obtain ⟨q, hq, hvd⟩ := blockViolations_mem hvb
    have hsome := defViolation_cross_lookup hvd hkind
    have hlabels := (defViolation_fields hvd).2
    rw [← hlabels, hlab] at hsome
    unfold firstUsageBlock at hnone
    rw [hnone] at hsome
    simp at hsome

/-- Witness for C10: in `c10doc` the label `lab` occurs only on its own
definition line, is absent from the first-usage map, and its definition's
reported violation is not CrossBlock. -/
theorem c10_def_line_usages_witness :
    (Violation.mk 1 (String.toList "lab") ViolationKind.notAtEnd).kind
      ≠ ViolationKind.crossBlock :=
  (c10_def_line_usages c10doc).2 (String.toList "lab") (by rfl)
    ⟨1, String.toList "lab", ViolationKind.notAtEnd⟩ (by decide) (by rfl)

end MdRules
